import Mathlib

/-!
Verification of the chord-analysis pipeline of `analyze_midi.py`.

The source is shallowly embedded: Python floats become `ℚ`, Python ints
become `ℤ` (or `ℕ` for the 1-based index counter), Python strings become
`List Char`, and the external music21 objects consumed by the pipeline
(chordified stream elements together with the result of the external
Roman-numeral derivation) become the `Group` structure.  Each definition
mirrors one function of the source file.
-/

namespace AnalyzeMidi

/-- Python's `round` on a float: round to the nearest integer, ties to the
even integer (banker's rounding).  Embedded over `ℚ`. -/
def pyRound (q : ℚ) : ℤ :=
  if q - ⌊q⌋ = 1 / 2 then (if ⌊q⌋ % 2 = 0 then ⌊q⌋ else ⌊q⌋ + 1)
  else round q

/-- `quantize_value(value, grid)` from `analyze_midi.py`: if `grid <= 0`
return `value` unchanged, else `round(value / grid) * grid`. -/
def quantize_value (value grid : ℚ) : ℚ :=
  if grid ≤ 0 then value
  else (pyRound (value / grid) : ℚ) * grid

/-- `pyRound q` never exceeds `q + 1/2`. -/
lemma pyRound_le (q : ℚ) : (pyRound q : ℚ) ≤ q + 1 / 2 := by
  unfold pyRound
  split
  · rename_i h
    have hfl : (⌊q⌋ : ℚ) = q - 1 / 2 := by linarith
    split <;> push_cast <;> linarith
  · have h := abs_sub_round q
    rw [abs_le] at h
    linarith [h.1]

/-- `pyRound q` is at least `q - 1/2`. -/
lemma le_pyRound (q : ℚ) : q - 1 / 2 ≤ (pyRound q : ℚ) := by
  unfold pyRound
  split
  · rename_i h
    have hfl : (⌊q⌋ : ℚ) = q - 1 / 2 := by linarith
    split <;> push_cast <;> linarith
  · have h := abs_sub_round q
    rw [abs_le] at h
    linarith [h.2]

/-- Python's rounding is monotone. -/
lemma pyRound_mono {p q : ℚ} (hpq : p ≤ q) : pyRound p ≤ pyRound q := by
  by_contra hlt
  push_neg at hlt
  have hz : pyRound q + 1 ≤ pyRound p := hlt
  have hz' : (pyRound q : ℚ) + 1 ≤ (pyRound p : ℚ) := by exact_mod_cast hz
  have h1 := le_pyRound q
  have h2 := pyRound_le p
  have hpq' : p = q := by linarith
  subst hpq'
  omega

/-- Quantization is monotone in the value, for every grid. -/
lemma quantize_value_mono (grid : ℚ) {v₁ v₂ : ℚ} (h : v₁ ≤ v₂) :
    quantize_value v₁ grid ≤ quantize_value v₂ grid := by
  unfold quantize_value
  split
  · exact h
  · rename_i hg
    push_neg at hg
    have hdiv : v₁ / grid ≤ v₂ / grid := by
      exact div_le_div_of_nonneg_right h hg.le
    have hr : pyRound (v₁ / grid) ≤ pyRound (v₂ / grid) := pyRound_mono hdiv
    have hr' : (pyRound (v₁ / grid) : ℚ) ≤ (pyRound (v₂ / grid) : ℚ) := by
      exact_mod_cast hr
    exact mul_le_mul_of_nonneg_right hr' (le_of_lt hg)

/-- C6: for every value `v` and every grid `g ≤ 0`, `quantize_value v g`
returns `v` unchanged (quantization disabled). -/
theorem quantize_disabled_identity :
    ∀ (v g : ℚ), g ≤ 0 → quantize_value v g = v := by
  intro v g hg
  unfold quantize_value
  exact if_pos hg

/-- Witness for C6 at `v = 5`, `g = 0`. -/
theorem quantize_disabled_identity_witness :
    (0 : ℚ) ≤ 0 ∧ quantize_value 5 0 = 5 :=
  ⟨le_refl 0, quantize_disabled_identity 5 0 (le_refl 0)⟩

/-- C7: for every value `v` and every grid `g > 0`, `quantize_value v g`
equals `round (v / g) * g` (with the source's rounding) and is an exact
multiple of `g`. -/
theorem quantize_multiple_of_grid :
    ∀ (v g : ℚ), 0 < g →
      quantize_value v g = (pyRound (v / g) : ℚ) * g ∧
      ∃ n : ℤ, quantize_value v g = (n : ℚ) * g := by
  intro v g hg
  have hne : ¬ g ≤ 0 := not_le.mpr hg
  constructor
  · unfold quantize_value
    exact if_neg hne
  · exact ⟨pyRound (v / g), by unfold quantize_value; exact if_neg hne⟩

/-- Witness for C7 at `v = 3`, `g = 2`. -/
theorem quantize_multiple_of_grid_witness :
    (0 : ℚ) < 2 ∧
      (quantize_value 3 2 = (pyRound ((3 : ℚ) / 2) : ℚ) * 2 ∧
        ∃ n : ℤ, quantize_value 3 2 = (n : ℚ) * 2) :=
  ⟨by norm_num, quantize_multiple_of_grid 3 2 (by norm_num)⟩

/-- Python's substring test `pat in s` for a non-empty pattern, over
`List Char` (for the empty pattern Python returns `True`; the source only
tests non-empty patterns, and `hasSub [] s = s.isEmpty` is never relied on). -/
def hasSub (pat : List Char) : List Char → Bool
  | [] => pat.isEmpty
  | c :: t => pat.isPrefixOf (c :: t) || hasSub pat t

/-- The suffix-selection chain of `simplify_roman_figure`: seventh-chord
inversion codes are tested before triad inversion codes. -/
def suffix_of_trailing (trailing : List Char) : List Char :=
  if hasSub ['6', '5'] trailing then ['6', '5']
  else if hasSub ['4', '3'] trailing then ['4', '3']
  else if hasSub ['4', '2'] trailing then ['4', '2']
  else if hasSub ['7'] trailing then ['7']
  else if hasSub ['6', '4'] trailing then ['6', '4']
  else if hasSub ['6'] trailing then ['6']
  else []

/-- A character is not a digit (the predicate used to split a figure into
its roman root and its trailing figures). -/
def nonDigit (c : Char) : Bool := !c.isDigit

/-- `simplify_roman_figure(figure)` from `analyze_midi.py`: split the figure
at the first digit into `roman_root` and `trailing`, then append the
canonical suffix selected from `trailing`. -/
def simplify_roman_figure (figure : List Char) : List Char :=
  if figure = [] then figure
  else figure.takeWhile nonDigit ++ suffix_of_trailing (figure.dropWhile nonDigit)

/-- If a pattern starting with a digit occurs in `f`, it still occurs after
the leading non-digit characters of `f` are dropped. -/
lemma hasSub_dropWhile_of_digit_head (d : Char) (hd : d.isDigit = true)
    (rest : List Char) :
    ∀ f : List Char, hasSub (d :: rest) f = true →
      hasSub (d :: rest) (f.dropWhile nonDigit) = true := by
  intro f
  induction f with
  | nil => intro h; simp [hasSub] at h
  | cons c t ih =>
    intro h
    rw [hasSub, Bool.or_eq_true] at h
    by_cases hc : nonDigit c = true
    · rw [List.dropWhile_cons_of_pos hc]
      rcases h with h | h
      · exfalso
        rw [List.isPrefixOf_cons₂] at h
        have : d = c := by
          have := (Bool.and_eq_true _ _).mp h |>.1
          exact beq_iff_eq.mp this
        subst this
        simp [nonDigit, hd] at hc
      · exact ih h
    · rw [List.dropWhile_cons_of_neg hc]
      rw [hasSub, Bool.or_eq_true]
      exact h

/-- C9: every figure containing the substring `"65"` simplifies to its
digit-free root followed by `"65"` (the seventh-chord check wins over the
triad check), and `simplify_roman_figure "V6532" = "V65"`. -/
theorem simplify_contains_65 :
    (∀ f : List Char, hasSub ['6', '5'] f = true →
      simplify_roman_figure f = f.takeWhile nonDigit ++ ['6', '5']) ∧
    simplify_roman_figure ['V', '6', '5', '3', '2'] = ['V', '6', '5'] := by
  constructor
  · intro f hf
    have hne : f ≠ [] := by
      intro h; subst h; simp [hasSub] at hf
    have htr : hasSub ['6', '5'] (f.dropWhile nonDigit) = true :=
      hasSub_dropWhile_of_digit_head '6' (by decide) ['5'] f hf
    rw [simplify_roman_figure, if_neg hne, suffix_of_trailing, if_pos htr]
  · decide

/-- Witness for C9 at the figure `"V6532"`. -/
theorem simplify_contains_65_witness :
    hasSub ['6', '5'] ['V', '6', '5', '3', '2'] = true ∧
      simplify_roman_figure ['V', '6', '5', '3', '2'] =
        (['V', '6', '5', '3', '2'] : List Char).takeWhile nonDigit ++ ['6', '5'] :=
  ⟨by decide, simplify_contains_65.1 ['V', '6', '5', '3', '2'] (by decide)⟩

/-- `takeWhile` walks through a prefix on which the predicate holds. -/
lemma takeWhile_append_all (P : Char → Bool) (r s : List Char)
    (hr : ∀ c ∈ r, P c = true) :
    (r ++ s).takeWhile P = r ++ s.takeWhile P := by
  induction r with
  | nil => simp
  | cons c t ih =>
    have hc : P c = true := hr c (List.mem_cons_self c t)
    simp only [List.cons_append, List.takeWhile_cons_of_pos hc]
    rw [ih fun x hx => hr x (List.mem_cons_of_mem c hx)]

/-- `dropWhile` drops a whole prefix on which the predicate holds. -/
lemma dropWhile_append_all (P : Char → Bool) (r s : List Char)
    (hr : ∀ c ∈ r, P c = true) :
    (r ++ s).dropWhile P = s.dropWhile P := by
  induction r with
  | nil => simp
  | cons c t ih =>
    have hc : P c = true := hr c (List.mem_cons_self c t)
    simp only [List.cons_append, List.dropWhile_cons_of_pos hc]
    exact ih fun x hx => hr x (List.mem_cons_of_mem c hx)

/-- The suffix chain only ever returns one of seven canonical suffixes. -/
lemma suffix_of_trailing_mem (t : List Char) :
    suffix_of_trailing t ∈
      ([['6', '5'], ['4', '3'], ['4', '2'], ['7'], ['6', '4'], ['6'], []] :
        List (List Char)) := by
  unfold suffix_of_trailing
  split
  · simp
  · split
    · simp
    · split
      · simp
      · split
        · simp
        · split
          · simp
          · split <;> simp

/-- A canonical suffix appended to a digit-free root is a fixed point of the
simplifier. -/
lemma simplify_fixed (r s : List Char)
    (hr : ∀ c ∈ r, nonDigit c = true)
    (hs : s ∈ ([['6', '5'], ['4', '3'], ['4', '2'], ['7'], ['6', '4'], ['6'], []] :
      List (List Char))) :
    simplify_roman_figure (r ++ s) = r ++ s := by
  have hclose : s ≠ [] →
      simplify_roman_figure (r ++ s) = r ++ s := by
    intro hsne
    have hne : r ++ s ≠ [] := by
      intro h
      exact hsne (List.append_eq_nil.mp h).2
    have htake : (r ++ s).takeWhile nonDigit = r ++ s.takeWhile nonDigit :=
      takeWhile_append_all nonDigit r s hr
    have hdrop : (r ++ s).dropWhile nonDigit = s.dropWhile nonDigit :=
      dropWhile_append_all nonDigit r s hr
    rw [simplify_roman_figure, if_neg hne, htake, hdrop]
    fin_cases hs
    · rw [show (['6', '5'] : List Char).takeWhile nonDigit = [] from by decide,
        show (['6', '5'] : List Char).dropWhile nonDigit = ['6', '5'] from by decide,
        show suffix_of_trailing ['6', '5'] = ['6', '5'] from by decide]
      simp
    · rw [show (['4', '3'] : List Char).takeWhile nonDigit = [] from by decide,
        show (['4', '3'] : List Char).dropWhile nonDigit = ['4', '3'] from by decide,
        show suffix_of_trailing ['4', '3'] = ['4', '3'] from by decide]
      simp
    · rw [show (['4', '2'] : List Char).takeWhile nonDigit = [] from by decide,
        show (['4', '2'] : List Char).dropWhile nonDigit = ['4', '2'] from by decide,
        show suffix_of_trailing ['4', '2'] = ['4', '2'] from by decide]
      simp
    · rw [show (['7'] : List Char).takeWhile nonDigit = [] from by decide,
        show (['7'] : List Char).dropWhile nonDigit = ['7'] from by decide,
        show suffix_of_trailing ['7'] = ['7'] from by decide]
      simp
    · rw [show (['6', '4'] : List Char).takeWhile nonDigit = [] from by decide,
        show (['6', '4'] : List Char).dropWhile nonDigit = ['6', '4'] from by decide,
        show suffix_of_trailing ['6', '4'] = ['6', '4'] from by decide]
      simp
    · rw [show (['6'] : List Char).takeWhile nonDigit = [] from by decide,
        show (['6'] : List Char).dropWhile nonDigit = ['6'] from by decide,
        show suffix_of_trailing ['6'] = ['6'] from by decide]
      simp
    · exact absurd rfl hsne
  by_cases hsne : s = []
  · subst hsne
    rw [List.append_nil]
    by_cases hrne : r = []
    · subst hrne; rfl
    · have htake : r.takeWhile nonDigit = r := List.takeWhile_eq_self_iff.mpr hr
      have hdrop : r.dropWhile nonDigit = [] := List.dropWhile_eq_nil_iff.mpr hr
      rw [simplify_roman_figure, if_neg hrne, htake, hdrop,
        show suffix_of_trailing [] = ([] : List Char) from by decide]
      simp
  · exact hclose hsne

/-- C10: the Roman-figure simplifier is idempotent. -/
theorem simplify_idempotent :
    ∀ f : List Char,
      simplify_roman_figure (simplify_roman_figure f) = simplify_roman_figure f := by
  intro f
  by_cases hf : f = []
  · subst hf; rfl
  · have hrep : simplify_roman_figure f =
        f.takeWhile nonDigit ++ suffix_of_trailing (f.dropWhile nonDigit) := by
      rw [simplify_roman_figure, if_neg hf]
    rw [hrep]
    exact simplify_fixed (f.takeWhile nonDigit) _
      (fun c hc => List.mem_takeWhile_imp hc)
      (suffix_of_trailing_mem (f.dropWhile nonDigit))

/-- One element of the chordified reduced stream, as consumed by the loop of
`analyze_chords`.  `isChord` models `isinstance(element, m21_chord.Chord)`;
`pitches` models `element.pitches` as the list of pitch names (music21 keeps
duplicate pitches, so this is a list, not a set); `offset` and `duration`
model `float(element.offset)` and the already-coerced
`float(element.duration.quarterLength or 0.0)`; `roman` models the result of
the external `roman_of_chord(element, effective_key)` call (`none` =
derivation raised and was mapped to `None`). -/
structure Group where
  isChord : Bool
  pitches : List (List Char)
  offset : ℚ
  duration : ℚ
  roman : Option (List Char)
  deriving DecidableEq, Repr

/-- `is_harmonic_chord(element, min_notes)` from `analyze_midi.py`:
`isinstance(element, Chord) and len(element.pitches) >= min_notes`. -/
def is_harmonic_chord (element : Group) (min_notes : ℤ) : Bool :=
  if element.isChord then decide (min_notes ≤ (element.pitches.length : ℤ))
  else false

/-- The duration fallback of `analyze_chords`:
`if dur_q <= 0: dur_q = grid if grid and grid > 0 else 0.25`
(a Python float `grid` is truthy iff non-zero, so the guard is `grid > 0`). -/
def fallback_duration (grid dur_q : ℚ) : ℚ :=
  if dur_q ≤ 0 then (if 0 < grid then grid else 1 / 4) else dur_q

/-- `AnalyzedChord` from `analyze_midi.py` (the dataclass fields used by the
pipeline, exporter and table). -/
structure AnalyzedChord where
  index : ℕ
  offset_quarter : ℚ
  roman : List Char
  roman_simple : List Char
  duration_quarter : ℚ
  pitch_names : List (List Char)
  deriving DecidableEq, Repr

/-- The per-element loop of `analyze_chords`, threading the rolling
`last_roman` dedupe state and the index counter `idx`. -/
def analyzeLoop (grid : ℚ) (dedupe : Bool) (min_notes : ℤ) :
    List Group → Option (List Char) → ℕ → List AnalyzedChord
  | [], _, _ => []
  | g :: rest, last_roman, idx =>
    if is_harmonic_chord g min_notes = false then
      analyzeLoop grid dedupe min_notes rest last_roman idx
    else
      match g.roman with
      | none => analyzeLoop grid dedupe min_notes rest last_roman idx
      | some roman_str =>
        if dedupe = true ∧ last_roman = some roman_str then
          analyzeLoop grid dedupe min_notes rest last_roman idx
        else
          { index := idx
            offset_quarter := quantize_value g.offset grid
            roman := roman_str
            roman_simple := simplify_roman_figure roman_str
            duration_quarter := fallback_duration grid g.duration
            pitch_names := g.pitches } ::
          analyzeLoop grid dedupe min_notes rest (some roman_str) (idx + 1)

/-- `analyze_chords` restricted to its core loop: parsing, key resolution and
chordify are external; the loop starts with `last_roman = None` and
`idx = 1`. -/
def analyze_chords (grid : ℚ) (dedupe : Bool) (min_notes : ℤ)
    (groups : List Group) : List AnalyzedChord :=
  analyzeLoop grid dedupe min_notes groups none 1

/-- A chord-like stream element whose pitch list repeats a pitch name:
`len(element.pitches)` counts it twice, a distinct-pitch count would not. -/
def dupPitchGroup : Group :=
  { isChord := true
    pitches := [['C', '4'], ['C', '4'], ['E', '4']]
    offset := 0
    duration := 1
    roman := some ['I'] }

/-- C2 counterexample: the filter counts pitches with multiplicity, not
distinct pitches: a chord whose pitch list is `[C4, C4, E4]` (two distinct
pitches) is accepted at threshold 3, so "accepts iff the number of distinct
pitches is ≥ the threshold" is false at this input. -/
theorem is_harmonic_chord_distinct_counterexample :
    ¬ (is_harmonic_chord dupPitchGroup 3 = true ↔
        (dupPitchGroup.isChord = true ∧
          3 ≤ (dupPitchGroup.pitches.dedup.length : ℤ))) := by
  decide

/-- C2 amended: the filter accepts iff the element is chord-like and the
length of its pitch list (duplicates counted) is at least the threshold;
in particular non-chord elements are never accepted, a three-pitch chord
passes threshold 3, a two-pitch chord fails threshold 3 but passes
threshold 2. -/
theorem is_harmonic_chord_iff :
    (∀ (g : Group) (n : ℤ),
      is_harmonic_chord g n = true ↔
        (g.isChord = true ∧ n ≤ (g.pitches.length : ℤ))) ∧
    is_harmonic_chord
      { isChord := false, pitches := [['C', '4'], ['E', '4'], ['G', '4']],
        offset := 0, duration := 1, roman := none } 3 = false ∧
    is_harmonic_chord
      { isChord := true, pitches := [['C', '4'], ['E', '4'], ['G', '4']],
        offset := 0, duration := 1, roman := none } 3 = true ∧
    is_harmonic_chord
      { isChord := true, pitches := [['C', '4'], ['E', '4']],
        offset := 0, duration := 1, roman := none } 3 = false ∧
    is_harmonic_chord
      { isChord := true, pitches := [['C', '4'], ['E', '4']],
        offset := 0, duration := 1, roman := none } 2 = true := by
  refine ⟨fun g n => ?_, by decide, by decide, by decide, by decide⟩
  unfold is_harmonic_chord
  by_cases hg : g.isChord = true
  · simp [hg]
  · simp [hg, Bool.eq_false_iff.mpr hg]

/-- The indices emitted by the loop starting at `idx` are exactly
`idx, idx+1, ...`, one per emitted record. -/
lemma analyzeLoop_indices (grid : ℚ) (dedupe : Bool) (min_notes : ℤ) :
    ∀ (groups : List Group) (last : Option (List Char)) (idx : ℕ),
      (analyzeLoop grid dedupe min_notes groups last idx).map (·.index) =
        List.range' idx (analyzeLoop grid dedupe min_notes groups last idx).length := by
  intro groups
  induction groups with
  | nil => intro last idx; simp [analyzeLoop]
  | cons g rest ih =>
    intro last idx
    rw [analyzeLoop]
    split
    · exact ih last idx
    · split
      · exact ih last idx
      · rename_i roman_str heq
        split
        · exact ih last idx
        · simp only [List.map_cons, List.length_cons, List.range'_succ]
          rw [ih (some roman_str) (idx + 1)]

/-- C4: the `index` values of the emitted records are exactly `1..N` in
emission order, for `N` the number of emitted records, for every input and
configuration. -/
theorem index_sequence_contiguous :
    ∀ (grid : ℚ) (dedupe : Bool) (min_notes : ℤ) (groups : List Group),
      (analyze_chords grid dedupe min_notes groups).map (·.index) =
        List.range' 1 (analyze_chords grid dedupe min_notes groups).length := by
  intro grid dedupe min_notes groups
  exact analyzeLoop_indices grid dedupe min_notes groups none 1

/-- With dedupe on, the loop's output has no two adjacent records with equal
detailed figure, and its first record's figure differs from the incoming
`last_roman` state. -/
lemma analyzeLoop_dedupe_chain (grid : ℚ) (min_notes : ℤ) :
    ∀ (groups : List Group) (last : Option (List Char)) (idx : ℕ),
      List.Chain' (fun a b => a.roman ≠ b.roman)
        (analyzeLoop grid true min_notes groups last idx) ∧
      (∀ a, (analyzeLoop grid true min_notes groups last idx).head? = some a →
        last ≠ some a.roman) := by
  intro groups
  induction groups with
  | nil =>
    intro last idx
    refine ⟨List.chain'_nil, ?_⟩
    intro a h
    have hnil : analyzeLoop grid true min_notes [] last idx = [] := rfl
    rw [hnil] at h
    exact absurd h (by simp)
  | cons g rest ih =>
    intro last idx
    rw [analyzeLoop]
    split
    · exact ih last idx
    · split
      · exact ih last idx
      · rename_i roman_str heq
        split
        · exact ih last idx
        · rename_i hcond
          have hlast : last ≠ some roman_str := by
            intro h
            exact hcond ⟨rfl, h⟩
          obtain ⟨ihc, ihh⟩ := ih (some roman_str) (idx + 1)
          constructor
          · rw [List.chain'_cons']
            refine ⟨?_, ihc⟩
            intro b hb
            have hhead := ihh b (Option.mem_def.mp hb)
            intro hba
            exact hhead (congrArg some hba)
          · intro a ha
            rw [List.head?_cons, Option.some_inj] at ha
            subst ha
            exact hlast

/-- A chord-like stream element at offset `off` whose external derivation
returned the figure `r`. -/
def mkGroup (off : ℚ) (r : List Char) : Group :=
  { isChord := true
    pitches := [['C', '4'], ['E', '4'], ['G', '4']]
    offset := off
    duration := 1
    roman := some r }

/-- The spec's dedupe example: detailed figures `[I, I, V, V, V, I]`. -/
def dedupeExample : List Group :=
  [mkGroup 0 ['I'], mkGroup 1 ['I'], mkGroup 2 ['V'],
   mkGroup 3 ['V'], mkGroup 4 ['V'], mkGroup 5 ['I']]

/-- Two adjacent figures with equal simplified form `V65` but different
detailed form: dedupe must keep both, because it compares the detailed
figure only. -/
def simplifiedPairExample : List Group :=
  [mkGroup 0 ['V', '6', '5', '3', '2'], mkGroup 1 ['V', '6', '5']]

/-- C3: with dedupe enabled no two index-adjacent records have equal
detailed figure `roman`; the figures `[I, I, V, V, V, I]` yield `roman`
sequence `[I, V, I]` with indices `[1, 2, 3]`; and two adjacent groups with
equal simplified but distinct detailed figures are both kept (only the
detailed figure is compared). -/
theorem dedupe_no_adjacent_equal_roman :
    (∀ (grid : ℚ) (min_notes : ℤ) (groups : List Group),
      List.Chain' (fun a b => a.roman ≠ b.roman)
        (analyze_chords grid true min_notes groups)) ∧
    (analyze_chords 1 true 3 dedupeExample).map (·.roman) =
      [['I'], ['V'], ['I']] ∧
    (analyze_chords 1 true 3 dedupeExample).map (·.index) = [1, 2, 3] ∧
    (analyze_chords 1 true 3 simplifiedPairExample).map (·.roman) =
      [['V', '6', '5', '3', '2'], ['V', '6', '5']] := by
  refine ⟨fun grid min_notes groups => ?_, by decide, by decide, by decide⟩
  exact (analyzeLoop_dedupe_chain grid min_notes groups none 1).1

/-- The duration fallback always yields a strictly positive value. -/
lemma fallback_duration_pos (grid dur_q : ℚ) : 0 < fallback_duration grid dur_q := by
  unfold fallback_duration
  split
  · split
    · assumption
    · norm_num
  · rename_i h
    exact lt_of_not_le h

/-- Every record emitted by the loop has a strictly positive duration. -/
lemma analyzeLoop_duration_pos (grid : ℚ) (dedupe : Bool) (min_notes : ℤ) :
    ∀ (groups : List Group) (last : Option (List Char)) (idx : ℕ),
      ∀ r ∈ analyzeLoop grid dedupe min_notes groups last idx,
        0 < r.duration_quarter := by
  intro groups
  induction groups with
  | nil =>
    intro last idx r hr
    have hnil : analyzeLoop grid dedupe min_notes [] last idx = [] := rfl
    rw [hnil] at hr
    exact absurd hr (List.not_mem_nil r)
  | cons g rest ih =>
    intro last idx r hr
    rw [analyzeLoop] at hr
    revert hr
    split
    · exact ih last idx r
    · split
      · exact ih last idx r
      · rename_i roman_str heq
        split
        · exact ih last idx r
        · intro hr
          rcases List.mem_cons.mp hr with h | h
          · subst h
            exact fallback_duration_pos grid g.duration
          · exact ih (some roman_str) (idx + 1) r h

/-- A chord-like group whose source duration is `0`. -/
def zeroDurGroup : Group :=
  { isChord := true
    pitches := [['C', '4'], ['E', '4'], ['G', '4']]
    offset := 0
    duration := 0
    roman := some ['I'] }

/-- Concrete run: duration `0`, grid `1/2`. -/
lemma analyze_zeroDur_half :
    analyze_chords (1 / 2) false 3 [zeroDurGroup] =
      [{ index := 1, offset_quarter := 0, roman := ['I'], roman_simple := ['I'],
         duration_quarter := 1 / 2,
         pitch_names := [['C', '4'], ['E', '4'], ['G', '4']] }] := by
  norm_num [analyze_chords, analyzeLoop, is_harmonic_chord, zeroDurGroup,
    fallback_duration, quantize_value, pyRound, simplify_roman_figure,
    suffix_of_trailing, hasSub, nonDigit]
  decide

/-- Concrete run: duration `0`, grid `0`. -/
lemma analyze_zeroDur_zero :
    analyze_chords 0 false 3 [zeroDurGroup] =
      [{ index := 1, offset_quarter := 0, roman := ['I'], roman_simple := ['I'],
         duration_quarter := 1 / 4,
         pitch_names := [['C', '4'], ['E', '4'], ['G', '4']] }] := by
  norm_num [analyze_chords, analyzeLoop, is_harmonic_chord, zeroDurGroup,
    fallback_duration, quantize_value, pyRound, simplify_roman_figure,
    suffix_of_trailing, hasSub, nonDigit]
  decide

/-- C5: every emitted record has strictly positive `durationQuarter`; a
source duration `≤ 0` is replaced by the grid when the grid is positive and
by `0.25` otherwise; in particular duration `0` with grid `0.5` yields `0.5`
and duration `0` with grid `0` yields `0.25`. -/
theorem duration_strictly_positive :
    (∀ (grid : ℚ) (dedupe : Bool) (min_notes : ℤ) (groups : List Group),
      ∀ r ∈ analyze_chords grid dedupe min_notes groups,
        0 < r.duration_quarter) ∧
    (∀ grid dur_q : ℚ, dur_q ≤ 0 →
      fallback_duration grid dur_q = if 0 < grid then grid else 1 / 4) ∧
    (analyze_chords (1 / 2) false 3 [zeroDurGroup]).map (·.duration_quarter) =
      [1 / 2] ∧
    (analyze_chords 0 false 3 [zeroDurGroup]).map (·.duration_quarter) =
      [1 / 4] := by
  refine ⟨?_, ?_, by rw [analyze_zeroDur_half]; rfl, by rw [analyze_zeroDur_zero]; rfl⟩
  · intro grid dedupe min_notes groups
    exact analyzeLoop_duration_pos grid dedupe min_notes groups none 1
  · intro grid dur_q h
    unfold fallback_duration
    rw [if_pos h]

/-- Witness for C5: the single record of the grid-`1/2` run, and the
fallback at `grid = 1/2`, `dur = 0`. -/
theorem duration_strictly_positive_witness :
    (0 : ℚ) <
      ({ index := 1, offset_quarter := 0, roman := ['I'], roman_simple := ['I'],
         duration_quarter := 1 / 2,
         pitch_names := [['C', '4'], ['E', '4'], ['G', '4']] } :
        AnalyzedChord).duration_quarter ∧
    ((0 : ℚ) ≤ 0 ∧
      fallback_duration (1 / 2) 0 = if (0 : ℚ) < 1 / 2 then 1 / 2 else 1 / 4) :=
  ⟨duration_strictly_positive.1 (1 / 2) false 3 [zeroDurGroup] _
      (by rw [analyze_zeroDur_half]; exact List.mem_singleton.mpr rfl),
   le_refl 0, duration_strictly_positive.2.1 (1 / 2) 0 (le_refl 0)⟩

/-- The quantized offsets of the emitted records form a sublist of the
quantized offsets of all input groups. -/
lemma analyzeLoop_offsets_sublist (grid : ℚ) (dedupe : Bool) (min_notes : ℤ) :
    ∀ (groups : List Group) (last : Option (List Char)) (idx : ℕ),
      ((analyzeLoop grid dedupe min_notes groups last idx).map
        (·.offset_quarter)).Sublist
        (groups.map fun g => quantize_value g.offset grid) := by
  intro groups
  induction groups with
  | nil =>
    intro last idx
    have hnil : analyzeLoop grid dedupe min_notes [] last idx = [] := rfl
    rw [hnil]
    exact List.Sublist.refl []
  | cons g rest ih =>
    intro last idx
    rw [analyzeLoop, List.map_cons]
    split
    · exact (ih last idx).cons _
    · split
      · exact (ih last idx).cons _
      · rename_i roman_str heq
        split
        · exact (ih last idx).cons _
        · rw [List.map_cons]
          exact (ih (some roman_str) (idx + 1)).cons₂ _

/-- C8: quantization is monotone for every positive grid, and on a
time-ordered input the emitted `offsetQuarter` values are monotone
non-decreasing. -/
theorem quantize_monotone_offsets_sorted :
    (∀ g v₁ v₂ : ℚ, 0 < g → v₁ ≤ v₂ →
      quantize_value v₁ g ≤ quantize_value v₂ g) ∧
    (∀ (grid : ℚ) (dedupe : Bool) (min_notes : ℤ) (groups : List Group),
      (groups.map (·.offset)).Pairwise (· ≤ ·) →
      ((analyze_chords grid dedupe min_notes groups).map
        (·.offset_quarter)).Pairwise (· ≤ ·)) := by
  constructor
  · intro g v₁ v₂ _ h
    exact quantize_value_mono g h
  · intro grid dedupe min_notes groups hsorted
    have hmap : ((groups.map (·.offset)).map
        fun v => quantize_value v grid).Pairwise (· ≤ ·) := by
      rw [List.pairwise_map]
      exact hsorted.imp fun h => quantize_value_mono grid h
    rw [List.map_map] at hmap
    have hsub := analyzeLoop_offsets_sublist grid dedupe min_notes groups none 1
    exact hmap.sublist hsub

/-- Witness for C8: grid `1`, values `0 ≤ 3/2`, and a two-group
time-ordered run. -/
theorem quantize_monotone_offsets_sorted_witness :
    ((0 : ℚ) < 1 ∧ (0 : ℚ) ≤ 3 / 2 ∧
      quantize_value 0 1 ≤ quantize_value (3 / 2) 1) ∧
    (((dedupeExample.map (·.offset)).Pairwise (· ≤ ·)) ∧
      ((analyze_chords 1 false 3 dedupeExample).map
        (·.offset_quarter)).Pairwise (· ≤ ·)) := by
  have hsorted : (dedupeExample.map (·.offset)).Pairwise (· ≤ ·) := by
    norm_num [dedupeExample, mkGroup, List.pairwise_cons]
  exact ⟨⟨by norm_num, by norm_num,
    quantize_monotone_offsets_sorted.1 1 0 (3 / 2) (by norm_num) (by norm_num)⟩,
    hsorted,
    quantize_monotone_offsets_sorted.2 1 false 3 dedupeExample hsorted⟩

/-- Python's `f"{n:03d}"` for a non-negative `n`: decimal digits, left-padded
with zeros to width 3. -/
def pad3 (n : ℕ) : List Char :=
  let ds := Nat.toDigits 10 n
  List.replicate (3 - ds.length) '0' ++ ds

/-- The snippet filename of `export_chord_midis`:
`f"{entry.index:03d}_{entry.roman_simple.replace('/', '-')}.mid"`. -/
def snippet_filename (entry : AnalyzedChord) : List Char :=
  pad3 entry.index ++ '_' ::
    (entry.roman_simple.map fun c => if c = '/' then '-' else c) ++
    ['.', 'm', 'i', 'd']

/-- `export_chord_midis(export_dir, analyzed)`: writes one snippet per
record, in order.  `write_fails e = true` models `s.write` raising for that
entry; the function has no handler, so the exception propagates and the loop
stops.  Returns the filenames actually written and whether an exception
escaped. -/
def export_chord_midis (write_fails : AnalyzedChord → Bool) :
    List AnalyzedChord → List (List Char) × Bool
  | [] => ([], false)
  | e :: rest =>
    if write_fails e then ([], true)
    else
      let r := export_chord_midis write_fails rest
      (snippet_filename e :: r.1, r.2)

/-- The observable outcome of the export-and-print tail of `main`. -/
structure RunOutput where
  snippets : List (List Char)
  warning : Bool
  table : List AnalyzedChord
  deriving Repr

/-- The tail of `main` after `analyze_chords` succeeds (no `--limit`): the
call to `export_chord_midis` is wrapped in `try/except` which prints a
warning, and the table loop then prints every analyzed record. -/
def run_export_and_print (write_fails : AnalyzedChord → Bool)
    (analyzed : List AnalyzedChord) : RunOutput :=
  let r := export_chord_midis write_fails analyzed
  { snippets := r.1, warning := r.2, table := analyzed }

/-- Two concrete analyzed records. -/
def exRecord1 : AnalyzedChord :=
  { index := 1, offset_quarter := 0, roman := ['I'], roman_simple := ['I'],
    duration_quarter := 1, pitch_names := [['C', '4'], ['E', '4'], ['G', '4']] }

/-- Second concrete analyzed record. -/
def exRecord2 : AnalyzedChord :=
  { index := 2, offset_quarter := 1, roman := ['V'], roman_simple := ['V'],
    duration_quarter := 1, pitch_names := [['G', '4'], ['B', '4'], ['D', '5']] }

/-- Writing fails exactly for the record with index 1. -/
def failOnFirst (e : AnalyzedChord) : Bool := e.index == 1

/-- C1 counterexample: when the first record's snippet write fails, the
failure is reported as a warning and the table is still printed in full,
but the second record's snippet is NOT written — refuting "every other
record's snippet is still written". -/
theorem export_failure_counterexample :
    (run_export_and_print failOnFirst [exRecord1, exRecord2]).warning = true ∧
    (run_export_and_print failOnFirst [exRecord1, exRecord2]).table =
      [exRecord1, exRecord2] ∧
    ¬ snippet_filename exRecord2 ∈
      (run_export_and_print failOnFirst [exRecord1, exRecord2]).snippets :=
  ⟨rfl, rfl, by decide⟩

/-- The export loop writes exactly the records before the first failure, and
an exception escapes iff some record fails. -/
lemma export_chord_midis_spec (write_fails : AnalyzedChord → Bool) :
    ∀ analyzed : List AnalyzedChord,
      (export_chord_midis write_fails analyzed).1 =
        (analyzed.takeWhile fun e => !write_fails e).map snippet_filename ∧
      (export_chord_midis write_fails analyzed).2 = analyzed.any write_fails := by
  intro analyzed
  induction analyzed with
  | nil => exact ⟨rfl, rfl⟩
  | cons e rest ih =>
    rw [export_chord_midis]
    by_cases he : write_fails e = true
    · rw [if_pos he]
      constructor
      · rw [List.takeWhile_cons_of_neg (by simp [he])]
        rfl
      · simp [he]
    · rw [if_neg he]
      constructor
      · rw [List.takeWhile_cons_of_pos (by simp [Bool.eq_false_iff.mpr he]),
          List.map_cons]
        exact congrArg (snippet_filename e :: ·) ih.1
      · simp only [List.any_cons, Bool.eq_false_iff.mpr he, Bool.false_or]
        exact ih.2

/-- C1 amended: a failing snippet write is reported as a warning and does
not abort the run — the table is always printed in full — but the export
loop stops at the first failing record: exactly the records before the
first failure have their snippets written. -/
theorem export_failure_warning_table_full :
    ∀ (write_fails : AnalyzedChord → Bool) (analyzed : List AnalyzedChord),
      (run_export_and_print write_fails analyzed).table = analyzed ∧
      (run_export_and_print write_fails analyzed).snippets =
        (analyzed.takeWhile fun e => !write_fails e).map snippet_filename ∧
      (run_export_and_print write_fails analyzed).warning =
        analyzed.any write_fails := by
  intro write_fails analyzed
  exact ⟨rfl, (export_chord_midis_spec write_fails analyzed).1,
    (export_chord_midis_spec write_fails analyzed).2⟩

end AnalyzeMidi
